import Mathlib

/-!
Verification of the IR-protocol reverse-engineering core of
nature-remo-fan-control: the time-unit estimator, the AEHA-like bit
decoder, the LSB-first bit packer, the length-aware Hamming distance
(src/analyze_ir_dump.py, src/checksum_search.py) and the checksum-formula
search engine (src/checksum_search.py).

Conventions of the shallow embedding:
* Python ints are `Nat`/`Int`; `x & 0xFF` on a Python int (also a negative
  one) equals `x mod 256`, and is embedded as `% 256` on `Nat`, or as
  `(x % 256).toNat` with `Int.emod` for possibly negative `x`.
* Python `~x` is `-x - 1`.
* Python floats are embedded as `ℚ`; every quantity the claims touch is an
  exact rational of the integer inputs.
* Python list indexing `b[i]` is `List.getD i 0`; the claims only concern
  8-byte frames, on which this agrees with Python indexing.
* Bit strings of '0'/'1' characters are `List Bool` ('1' = `true`).
-/

namespace RemoFan

/-- A decoded byte frame (the checksum search receives 8-byte frames). -/
abbrev Frame := List Nat

/-- Python `b[i]` on a frame (claims restrict to length-8 frames). -/
def byteAt (b : Frame) (i : Nat) : Nat := b.getD i 0

/-- Python `sum(b[i] for i in S)` from `checksum_candidates`. -/
def sumS (S : List Nat) (b : Frame) : Nat := (S.map (byteAt b)).sum

/-- `_xor` of checksum_search.py: fold of `^` over the selected bytes,
then `& 0xFF` (= `% 256`). -/
def xorS (S : List Nat) (b : Frame) : Nat :=
  ((S.map (byteAt b)).foldl (· ^^^ ·) 0) % 256

/-- Python `x & 0xFF` for a possibly negative int `x`. -/
def maskByte (x : Int) : Nat := (x % 256).toNat

/-- The six candidate checksum-formula families enumerated by
`checksum_candidates`, as a tagged variant carrying the subset of byte
positions (and coefficient and constant for the linear family). -/
inductive Formula where
  | sumMod (S : List Nat)
  | negSum (S : List Nat)
  | notSum (S : List Nat)
  | xorSub (S : List Nat)
  | notXor (S : List Nat)
  | linear (S : List Nat) (k : Nat) (c : Nat)
deriving DecidableEq

/-- Evaluation of a candidate formula on a frame, mirroring the closures
built in `checksum_candidates` (`~x = -x - 1`, masks as `mod 256`). -/
def evalFormula : Formula → Frame → Nat
  | .sumMod S, b => sumS S b % 256
  | .negSum S, b => maskByte (-(sumS S b : Int))
  | .notSum S, b => maskByte (-(sumS S b : Int) - 1)
  | .xorSub S, b => xorS S b
  | .notXor S, b => maskByte (-(xorS S b : Int) - 1)
  | .linear S k c, b => (sumS S b + k * byteAt b 6 + c) % 256

/-- `ok_all` of `checksum_candidates`: the formula must reproduce byte 7
(post-mask to 8 bits) on every supplied sample. -/
def formula_ok (samples : List Frame) (f : Formula) : Bool :=
  samples.all fun b => evalFormula f b % 256 == byteAt b 7

/-- `[i for i in idxs if (mask >> i) & 1]` with `idxs = range(7)`. -/
def subsetOfMask (mask : Nat) : List Nat :=
  (List.range 7).filter fun i => (mask >>> i) % 2 == 1

/-- All 127 non-empty subsets of {0..6}, by ascending bitmask
(`for mask in range(1, 1 << 7)`). -/
def allSubsets : List (List Nat) :=
  (List.range 127).map fun m => subsetOfMask (m + 1)

/-- Constant of the linear family, derived from the first sample:
`base0 = (sum(b0[i] for i in S) + k*b0[6]) & 0xFF; c = (b0[7] - base0) & 0xFF`. -/
def deriveC (b0 : Frame) (S : List Nat) (k : Nat) : Nat :=
  (((byteAt b0 7 : Int) - (((sumS S b0 + k * byteAt b0 6) % 256 : Nat) : Int)) % 256).toNat

/-- Failure modes of the search. `indexError` models the Python
`IndexError` raised by `samples[0]` on an empty sample list.
`emptyInput` models the `EmptyInputError` condition the specification
prescribes; the code never produces it. -/
inductive SearchError where
  | indexError
  | emptyInput
deriving DecidableEq

/-- The candidate list accumulated by `checksum_candidates` for a
non-empty sample list whose first element is `b0`, in the source's
append order: the three sum families per subset, then the two xor
families per subset, then the linear sweep over subsets and `k < 16`. -/
def candList (samples : List Frame) (b0 : Frame) : List Formula :=
  (allSubsets.flatMap fun S =>
    (if formula_ok samples (.sumMod S) then [Formula.sumMod S] else []) ++
    (if formula_ok samples (.negSum S) then [Formula.negSum S] else []) ++
    (if formula_ok samples (.notSum S) then [Formula.notSum S] else []))
  ++ (allSubsets.flatMap fun S =>
    (if formula_ok samples (.xorSub S) then [Formula.xorSub S] else []) ++
    (if formula_ok samples (.notXor S) then [Formula.notXor S] else []))
  ++ (allSubsets.flatMap fun S => (List.range 16).flatMap fun k =>
    if formula_ok samples (.linear S k (deriveC b0 S k))
    then [Formula.linear S k (deriveC b0 S k)] else [])

/-- `checksum_candidates` of checksum_search.py. On an empty sample list
the linear-family phase evaluates `samples[0]` outside any try/except and
the call aborts with an `IndexError`; otherwise every surviving candidate
is returned. -/
def checksum_candidates (samples : List Frame) : Except SearchError (List Formula) :=
  match samples with
  | [] => .error .indexError
  | b0 :: _ => .ok (candList samples b0)

/-- An 8-byte frame of genuine bytes, the domain the claims quantify over. -/
def ValidFrame (b : Frame) : Prop := b.length = 8 ∧ ∀ x ∈ b, x < 256

instance : DecidablePred ValidFrame := by
  intro b
  unfold ValidFrame
  infer_instance

/-- Well-formed formulas: those inside the space the search enumerates. -/
def WF : Formula → Prop
  | .sumMod S => S ∈ allSubsets
  | .negSum S => S ∈ allSubsets
  | .notSum S => S ∈ allSubsets
  | .xorSub S => S ∈ allSubsets
  | .notXor S => S ∈ allSubsets
  | .linear S k c => S ∈ allSubsets ∧ k < 16 ∧ c < 256

instance : DecidablePred WF := by
  intro f
  cases f <;> simp only [WF] <;> infer_instance

/-- A formula validates a sample list when it reproduces byte 7 (masked
to 8 bits) on every frame. -/
def Validates (f : Formula) (samples : List Frame) : Prop :=
  ∀ b ∈ samples, evalFormula f b % 256 = byteAt b 7

theorem formula_ok_iff {samples : List Frame} {f : Formula} :
    formula_ok samples f = true ↔ Validates f samples := by
  simp [formula_ok, Validates]

theorem mem_ite_singleton {α : Type} {c : Prop} [Decidable c] {f g : α} :
    (f ∈ if c then [g] else []) ↔ c ∧ f = g := by
  split <;> simp_all

theorem deriveC_lt (b0 : Frame) (S : List Nat) (k : Nat) : deriveC b0 S k < 256 := by
  unfold deriveC
  generalize k * byteAt b0 6 = p
  omega

theorem deriveC_eq {b : Frame} {S : List Nat} {k c : Nat} (hc : c < 256)
    (hv : evalFormula (.linear S k c) b % 256 = byteAt b 7) :
    deriveC b S k = c := by
  simp only [evalFormula] at hv
  unfold deriveC
  generalize hp : k * byteAt b 6 = p at hv ⊢
  omega

theorem linear_derived_ok {b : Frame} {S : List Nat} {k : Nat}
    (ht : byteAt b 7 < 256) :
    evalFormula (.linear S k (deriveC b S k)) b % 256 = byteAt b 7 := by
  simp only [evalFormula]
  unfold deriveC
  generalize k * byteAt b 6 = p
  omega

/-- Structural characterization of membership in the accumulated candidate
list: exactly the enumerated formulas that pass `ok_all`, with the linear
constant pinned to the one derived from the first sample. -/
theorem mem_candList {samples : List Frame} {b0 : Frame} {f : Formula} :
    f ∈ candList samples b0 ↔
      ((∃ S ∈ allSubsets, f = Formula.sumMod S) ∨
       (∃ S ∈ allSubsets, f = Formula.negSum S) ∨
       (∃ S ∈ allSubsets, f = Formula.notSum S) ∨
       (∃ S ∈ allSubsets, f = Formula.xorSub S) ∨
       (∃ S ∈ allSubsets, f = Formula.notXor S) ∨
       (∃ S ∈ allSubsets, ∃ k, k < 16 ∧ f = Formula.linear S k (deriveC b0 S k)))
      ∧ formula_ok samples f = true := by
  unfold candList
  simp only [List.mem_append, List.mem_flatMap, List.mem_range, mem_ite_singleton]
  constructor
  · intro h
    aesop
  · intro h
    aesop

/-- Core soundness/completeness: for a well-formed formula, membership in
the returned candidate list is exactly validity on every supplied sample. -/
theorem mem_iff_validates {samples : List Frame} {res : List Formula} {f : Formula}
    (hres : checksum_candidates samples = .ok res) (hwf : WF f) :
    f ∈ res ↔ Validates f samples := by
  match samples with
  | [] => simp [checksum_candidates] at hres
  | b0 :: rest =>
    have hres2 : res = candList (b0 :: rest) b0 := by
      simpa [checksum_candidates] using hres.symm
    subst hres2
    rw [mem_candList]
    constructor
    · rintro ⟨-, hok⟩
      exact formula_ok_iff.mp hok
    · intro hval
      refine ⟨?_, formula_ok_iff.mpr hval⟩
      match f with
      | .sumMod S => exact Or.inl ⟨S, hwf, rfl⟩
      | .negSum S => exact Or.inr (Or.inl ⟨S, hwf, rfl⟩)
      | .notSum S => exact Or.inr (Or.inr (Or.inl ⟨S, hwf, rfl⟩))
      | .xorSub S => exact Or.inr (Or.inr (Or.inr (Or.inl ⟨S, hwf, rfl⟩)))
      | .notXor S => exact Or.inr (Or.inr (Or.inr (Or.inr (Or.inl ⟨S, hwf, rfl⟩))))
      | .linear S k c =>
        obtain ⟨hS, hk, hc⟩ := hwf
        have hd : deriveC b0 S k = c :=
          deriveC_eq hc (hval b0 (List.mem_cons_self b0 rest))
        exact Or.inr (Or.inr (Or.inr (Or.inr (Or.inr ⟨S, hS, k, hk, by rw [hd]⟩))))

theorem byteAt_lt {b : Frame} (hb : ValidFrame b) (i : Nat) : byteAt b i < 256 := by
  rcases Nat.lt_or_ge i b.length with h | h
  · have he : b.getD i 0 = b[i] := List.getD_eq_getElem b 0 h
    unfold byteAt
    rw [he]
    exact hb.2 _ (List.getElem_mem h)
  · unfold byteAt
    rw [List.getD_eq_default b 0 h]
    omega

theorem foldl_xor_lt {l : List Nat} {a : Nat} (ha : a < 256)
    (hl : ∀ x ∈ l, x < 256) : l.foldl (· ^^^ ·) a < 256 := by
  induction l generalizing a with
  | nil => simpa using ha
  | cons x xs ih =>
    have hx : a ^^^ x < 256 := by
      have h8 : (256 : Nat) = 2 ^ 8 := by norm_num
      rw [h8] at ha ⊢
      exact Nat.xor_lt_two_pow ha (h8 ▸ hl x (by simp))
    exact ih hx fun y hy => hl y (by simp [hy])

/-- The claim-side xor relation: `xor(byte[0..6])`, unmasked. -/
def xorBytes06 (b : Frame) : Nat :=
  (([0, 1, 2, 3, 4, 5, 6].map (byteAt b)).foldl (· ^^^ ·) 0)

theorem xorBytes06_lt {b : Frame} (hb : ValidFrame b) : xorBytes06 b < 256 := by
  unfold xorBytes06
  refine foldl_xor_lt (by norm_num) ?_
  intro x hx
  rcases List.mem_map.mp hx with ⟨i, -, rfl⟩
  exact byteAt_lt hb i

theorem validates_xorSub_of {samples : List Frame}
    (hb : ∀ b ∈ samples, ValidFrame b)
    (hx : ∀ b ∈ samples, byteAt b 7 = xorBytes06 b) :
    Validates (Formula.xorSub [0, 1, 2, 3, 4, 5, 6]) samples := by
  intro b hbmem
  have hlt : xorBytes06 b < 256 := xorBytes06_lt (hb b hbmem)
  have := hx b hbmem
  simp only [evalFormula, xorS]
  rw [show ([0, 1, 2, 3, 4, 5, 6].map (byteAt b)).foldl (· ^^^ ·) 0 = xorBytes06 b from rfl,
    this]
  omega

/-- C1: a formula is in the search result iff it reproduces byte 7
(masked to 8 bits) on every supplied 8-byte frame; in particular the
full-subset XOR formula is returned whenever every frame satisfies
`byte[7] = xor(byte[0..6])`, and is dropped as soon as one appended
frame violates that relation. -/
theorem checksum_search_sound_complete :
    (∀ (samples : List Frame) (res : List Formula) (f : Formula),
      checksum_candidates samples = .ok res → WF f →
      (∀ b ∈ samples, ValidFrame b) →
      (f ∈ res ↔ Validates f samples)) ∧
    (∀ (samples : List Frame) (res : List Formula),
      (∀ b ∈ samples, ValidFrame b) →
      (∀ b ∈ samples, byteAt b 7 = xorBytes06 b) →
      checksum_candidates samples = .ok res →
      Formula.xorSub [0, 1, 2, 3, 4, 5, 6] ∈ res) ∧
    (∀ (samples : List Frame) (bad : Frame) (res : List Formula),
      ValidFrame bad → byteAt bad 7 ≠ xorBytes06 bad →
      checksum_candidates (samples ++ [bad]) = .ok res →
      Formula.xorSub [0, 1, 2, 3, 4, 5, 6] ∉ res) := by
  refine ⟨fun samples res f hres hwf _ => mem_iff_validates hres hwf, ?_, ?_⟩
  · intro samples res hb hx hres
    have hwf : WF (Formula.xorSub [0, 1, 2, 3, 4, 5, 6]) := by decide
    exact (mem_iff_validates hres hwf).mpr (validates_xorSub_of hb hx)
  · intro samples bad res hbad hne hres hmem
    have hwf : WF (Formula.xorSub [0, 1, 2, 3, 4, 5, 6]) := by decide
    have hval := (mem_iff_validates hres hwf).mp hmem
    have hv := hval bad (by simp)
    have hlt : xorBytes06 bad < 256 := xorBytes06_lt hbad
    simp only [evalFormula, xorS] at hv
    rw [show ([0, 1, 2, 3, 4, 5, 6].map (byteAt bad)).foldl (· ^^^ ·) 0 = xorBytes06 bad
      from rfl] at hv
    omega

/-- A sample frame satisfying `byte[7] = xor(byte[0..6])`:
`1^2^3^4^5^6^7 = 0`. -/
def frXor : Frame := [1, 2, 3, 4, 5, 6, 7, 0]

/-- A second such frame: `2^3^4^5^6^7^8 = 9`. -/
def frXor2 : Frame := [2, 3, 4, 5, 6, 7, 8, 9]

theorem checksum_search_sound_complete_witness :
    Formula.xorSub [0, 1, 2, 3, 4, 5, 6] ∈ candList [frXor2] frXor2 :=
  checksum_search_sound_complete.2.1 [frXor2] (candList [frXor2] frXor2)
    (by decide) (by decide) rfl

/-- C2 (amended): the search on an empty sample list aborts with the
generic `IndexError` raised by `samples[0]` in the linear-family phase;
it never returns a candidate list. -/
theorem empty_search_raises_index_error :
    checksum_candidates ([] : List Frame) = .error SearchError.indexError := rfl

/-- C2 counterexample: on the empty sample list the search does not fail
with the distinct `EmptyInputError` condition the claim names; the
failure is the generic index error. -/
theorem empty_search_not_empty_input_error :
    checksum_candidates ([] : List Frame) ≠ .error SearchError.emptyInput := by
  intro h
  have h2 : SearchError.indexError = SearchError.emptyInput := Except.error.inj h
  cases h2

/-- C3: with more evidence the candidate set can only shrink: every
formula returned for a superset sample list is returned for the subset
list as well, the linear family (whose constant is derived from the
first sample of the searched list) included. -/
theorem candidates_antitone (S1 S2 : List Frame) (res1 res2 : List Formula)
    (h1 : S1 ≠ []) (h2 : S2 ≠ []) (hframes : ∀ b ∈ S2, ValidFrame b)
    (hsub : ∀ b ∈ S1, b ∈ S2)
    (hr1 : checksum_candidates S1 = .ok res1)
    (hr2 : checksum_candidates S2 = .ok res2) :
    ∀ f ∈ res2, f ∈ res1 := by
  intro f hf
  match hS1 : S1, hS2 : S2 with
  | [], _ => exact absurd rfl h1
  | _, [] => exact absurd rfl h2
  | a1 :: r1, a2 :: r2 =>
    have hres1 : res1 = candList (a1 :: r1) a1 := by
      simpa [checksum_candidates] using hr1.symm
    have hres2 : res2 = candList (a2 :: r2) a2 := by
      simpa [checksum_candidates] using hr2.symm
    subst hres1 hres2
    obtain ⟨hshape, hok2⟩ := mem_candList.mp hf
    have hval2 : Validates f (a2 :: r2) := formula_ok_iff.mp hok2
    have hval1 : Validates f (a1 :: r1) := fun b hb => hval2 b (hsub b hb)
    refine mem_candList.mpr ⟨?_, formula_ok_iff.mpr hval1⟩
    rcases hshape with h | h | h | h | h | ⟨S, hS, k, hk, rfl⟩
    · exact Or.inl h
    · right; left; exact h
    · right; right; left; exact h
    · right; right; right; left; exact h
    · right; right; right; right; left; exact h
    · have hd : deriveC a1 S k = deriveC a2 S k :=
        deriveC_eq (deriveC_lt a2 S k) (hval1 a1 (List.mem_cons_self a1 r1))
      right; right; right; right; right
      exact ⟨S, hS, k, hk, by rw [hd]⟩

theorem candidates_antitone_witness :
    Formula.xorSub [0, 1, 2, 3, 4, 5, 6] ∈ candList [frXor] frXor :=
  candidates_antitone [frXor] [frXor, frXor2]
    (candList [frXor] frXor) (candList [frXor, frXor2] frXor)
    (by simp) (by simp) (by decide) (by simp) rfl rfl
    (Formula.xorSub [0, 1, 2, 3, 4, 5, 6])
    (mem_candList.mpr ⟨Or.inr (Or.inr (Or.inr (Or.inl ⟨[0, 1, 2, 3, 4, 5, 6],
      by decide, rfl⟩))), by decide⟩)

/-- C4 (amended): a single-sample search returns at least 16 distinct
linear-family candidates, one per coefficient `k` in 0..15, each with the
constant derived from the sample (the derived constants need not be
pairwise distinct), in addition to any matching fixed-family formulas. -/
theorem single_sample_linear_overfit (b : Frame) (res : List Formula)
    (hb : ValidFrame b) (hres : checksum_candidates [b] = .ok res) :
    ∃ l : List Formula, l.length = 16 ∧ l.Nodup ∧
      (∀ f ∈ l, f ∈ res ∧ ∃ S k c, f = Formula.linear S k c) ∧
      ∀ k, k < 16 → ∃ c, Formula.linear [0] k c ∈ l := by
  have hres2 : res = candList [b] b := by
    simpa [checksum_candidates] using hres.symm
  subst hres2
  refine ⟨(List.range 16).map fun k => Formula.linear [0] k (deriveC b [0] k),
    by simp, ?_, ?_, ?_⟩
  · refine (List.nodup_range 16).map ?_
    intro k1 k2 he
    injection he with _ h _
  · intro f hf
    rcases List.mem_map.mp hf with ⟨k, hk, rfl⟩
    refine ⟨?_, [0], k, deriveC b [0] k, rfl⟩
    refine mem_candList.mpr ⟨Or.inr (Or.inr (Or.inr (Or.inr (Or.inr
      ⟨[0], by decide, k, List.mem_range.mp hk, rfl⟩)))), ?_⟩
    refine formula_ok_iff.mpr ?_
    intro x hx
    rcases List.mem_singleton.mp hx with rfl
    exact linear_derived_ok (byteAt_lt hb 7)
  · intro k hk
    exact ⟨deriveC b [0] k, List.mem_map.mpr ⟨k, List.mem_range.mpr hk, rfl⟩⟩

theorem single_sample_linear_overfit_witness :
    ∃ l : List Formula, l.length = 16 ∧ l.Nodup ∧
      (∀ f ∈ l, f ∈ candList [frXor] frXor ∧ ∃ S k c, f = Formula.linear S k c) ∧
      ∀ k, k < 16 → ∃ c, Formula.linear [0] k c ∈ l :=
  single_sample_linear_overfit frXor (candList [frXor] frXor) (by decide) rfl

/-- The all-zero 8-byte frame. -/
def zeroFrame : Frame := [0, 0, 0, 0, 0, 0, 0, 0]

theorem byteAt_zeroFrame (i : Nat) : byteAt zeroFrame i = 0 := by
  rcases Nat.lt_or_ge i 8 with h | h
  · interval_cases i <;> rfl
  · exact List.getD_eq_default _ _ (by simpa [zeroFrame] using h)

theorem sumS_zeroFrame (S : List Nat) : sumS S zeroFrame = 0 := by
  refine List.sum_eq_zero ?_
  intro x hx
  rcases List.mem_map.mp hx with ⟨i, -, rfl⟩
  exact byteAt_zeroFrame i

theorem deriveC_zeroFrame (S : List Nat) (k : Nat) : deriveC zeroFrame S k = 0 := by
  unfold deriveC
  rw [sumS_zeroFrame, byteAt_zeroFrame, byteAt_zeroFrame]
  simp

/-- C4 counterexample: for the single all-zero sample, every linear
candidate carries the same derived constant `c = 0`, so the result does
not contain one candidate per coefficient with pairwise different
constants, as the claim asserts. -/
theorem single_sample_distinct_constants_counterexample :
    ∃ res, checksum_candidates [zeroFrame] = .ok res ∧
      ¬ ∃ cs : Fin 16 → Nat, Function.Injective cs ∧
          ∀ k : Fin 16, ∃ S, Formula.linear S k.1 (cs k) ∈ res := by
  refine ⟨candList [zeroFrame] zeroFrame, rfl, ?_⟩
  rintro ⟨cs, hinj, hall⟩
  have hzero : ∀ k : Fin 16, cs k = 0 := by
    intro k
    obtain ⟨S, hS⟩ := hall k
    obtain ⟨hshape, -⟩ := mem_candList.mp hS
    rcases hshape with ⟨T, -, h⟩ | ⟨T, -, h⟩ | ⟨T, -, h⟩ | ⟨T, -, h⟩ | ⟨T, -, h⟩ |
      ⟨T, -, k2, -, h⟩
    · cases h
    · cases h
    · cases h
    · cases h
    · cases h
    · injection h with _ _ hc
      rw [hc, deriveC_zeroFrame]
  have h01 : (0 : Fin 16) = 1 := hinj ((hzero 0).trans (hzero 1).symm)
  exact absurd h01 (by decide)

/-- `[abs(x) for x in data if x != 0]`, shared first step of both decoder
copies. -/
def absNonzero (data : List Int) : List Nat :=
  (data.filter fun x => x != 0).map Int.natAbs

/-- `near` helper of both decoder copies:
`abs(x - target) <= tol * target`. -/
def near (x target tol : ℚ) : Bool := decide (|x - target| ≤ tol * target)

/-- Body of the pair loop: ratio of the space to the unit with guarded
division (`space / unit_us if unit_us > 0 else 0`), bit `1` iff the
ratio is strictly nearer 3.0 than 1.0. -/
def classifyBit (space : Nat) (unit_us : ℚ) : Bool :=
  let r : ℚ := if 0 < unit_us then (space : ℚ) / unit_us else 0
  decide (|r - 3| < |r - 1|)

/-- The `while i + 1 < len(arr)` loop: consume `(mark, space)` pairs (the
mark is read but unused), discarding a trailing unpaired entry. -/
def pairBits (unit_us : ℚ) : List Nat → List Bool
  | _ :: space :: rest => classifyBit space unit_us :: pairBits unit_us rest
  | _ => []

/-- `decode_bits_aeha` of checksum_search.py. The leader-resemblance
check uses tolerance 0.6 (the default of its local `near`); both of its
branches set `start = 2`. -/
def decode_bits_aeha_cs (data : List Int) (unit_us : ℚ) : List Bool :=
  let arr := absNonzero data
  if arr.length < 4 then []
  else
    let start :=
      if 2 ≤ arr.length then
        if near (arr.getD 0 0 : ℚ) (8 * unit_us) (6 / 10) &&
            near (arr.getD 1 0 : ℚ) (4 * unit_us) (6 / 10) then 2 else 2
      else 0
    pairBits unit_us (arr.drop start)

/-- `decode_bits_aeha` of analyze_ir_dump.py: the second copy; its local
`near` defaults to tolerance 0.5 but the call passes 0.6 explicitly, so
the computation is the same. -/
def decode_bits_aeha_an (data : List Int) (unit_us : ℚ) : List Bool :=
  let arr := absNonzero data
  if arr.length < 4 then []
  else
    let start :=
      if 2 ≤ arr.length then
        if near (arr.getD 0 0 : ℚ) (8 * unit_us) (6 / 10) &&
            near (arr.getD 1 0 : ℚ) (4 * unit_us) (6 / 10) then 2 else 2
      else 0
    pairBits unit_us (arr.drop start)

/-- Claim-side pair loop (spec words, `T > 0` assumed at use): bit `1`
exactly when `|space/T - 3.0| < |space/T - 1.0|`. -/
def specPairs (T : ℚ) : List Nat → List Bool
  | _ :: space :: rest =>
      decide (|(space : ℚ) / T - 3| < |(space : ℚ) / T - 1|) :: specPairs T rest
  | _ => []

/-- Claim-side decoder: drop zeros and take absolute values; empty result
below 4 entries; otherwise skip the first two entries and classify the
remaining `(mark, space)` pairs. -/
def specDecode (data : List Int) (T : ℚ) : List Bool :=
  let arr := absNonzero data
  if arr.length < 4 then [] else specPairs T (arr.drop 2)

/-- Simplified decoder for the dead-branch claim: the start index is
unconditionally 2, no leader-resemblance check at all. -/
def decode_simple (data : List Int) (unit_us : ℚ) : List Bool :=
  let arr := absNonzero data
  if arr.length < 4 then [] else pairBits unit_us (arr.drop 2)

theorem pairBits_eq_specPairs (T : ℚ) (hT : 0 < T) :
    ∀ l : List Nat, pairBits T l = specPairs T l
  | [] => rfl
  | [_] => rfl
  | _ :: space :: rest => by
    simp only [pairBits, specPairs, classifyBit, if_pos hT,
      pairBits_eq_specPairs T hT rest]

theorem decode_cs_eq_simple (data : List Int) (unit_us : ℚ) :
    decode_bits_aeha_cs data unit_us = decode_simple data unit_us := by
  by_cases h4 : (absNonzero data).length < 4
  · simp [decode_bits_aeha_cs, decode_simple, h4]
  · have h2 : 2 ≤ (absNonzero data).length := by omega
    simp [decode_bits_aeha_cs, decode_simple, h4, h2, ite_self]

theorem decode_an_eq_simple (data : List Int) (unit_us : ℚ) :
    decode_bits_aeha_an data unit_us = decode_simple data unit_us := by
  by_cases h4 : (absNonzero data).length < 4
  · simp [decode_bits_aeha_an, decode_simple, h4]
  · have h2 : 2 ≤ (absNonzero data).length := by omega
    simp [decode_bits_aeha_an, decode_simple, h4, h2, ite_self]

/-- C5: for positive unit both decoder copies compute exactly the
claim-side decoder (skip two leader entries, classify each pair by which
of 3.0 and 1.0 the space ratio is strictly nearer to, ties giving 0),
and on the worked example the bits are "01". -/
theorem decoder_matches_spec (data : List Int) (T : ℚ) (hT : 0 < T) :
    decode_bits_aeha_cs data T = specDecode data T ∧
    decode_bits_aeha_an data T = specDecode data T ∧
    decode_bits_aeha_cs [3400, 1700, 425, 425, 425, 1275] 425 = [false, true] := by
  have hcore : decode_simple data T = specDecode data T := by
    by_cases h4 : (absNonzero data).length < 4
    · simp [decode_simple, specDecode, h4]
    · simp only [decode_simple, specDecode, if_neg h4]
      exact pairBits_eq_specPairs T hT _
  have hbit0 : classifyBit 425 (425 : ℚ) = false := by
    unfold classifyBit
    rw [if_pos (by norm_num)]
    norm_num
  have hbit1 : classifyBit 1275 (425 : ℚ) = true := by
    unfold classifyBit
    rw [if_pos (by norm_num)]
    norm_num
  have hex : decode_bits_aeha_cs [3400, 1700, 425, 425, 425, 1275] 425 =
      [false, true] := by
    rw [decode_cs_eq_simple]
    show classifyBit 425 425 :: classifyBit 1275 425 :: ([] : List Bool) =
      [false, true]
    rw [hbit0, hbit1]
  exact ⟨(decode_cs_eq_simple data T).trans hcore,
    (decode_an_eq_simple data T).trans hcore, hex⟩

theorem decoder_matches_spec_witness :
    decode_bits_aeha_cs [3400, 1700, 425, 425, 425, 1275] (425 : ℚ) =
      specDecode [3400, 1700, 425, 425, 425, 1275] (425 : ℚ) :=
  (decoder_matches_spec [3400, 1700, 425, 425, 425, 1275] 425 (by norm_num)).1

/-- C9: the leader-resemblance check is dead code: both source copies of
the decoder always skip exactly two entries, equal the simplified decoder
with the check removed, and hence are extensionally equal to each other. -/
theorem leader_check_has_no_effect (data : List Int) (unit_us : ℚ) :
    decode_bits_aeha_cs data unit_us = decode_simple data unit_us ∧
    decode_bits_aeha_an data unit_us = decode_simple data unit_us ∧
    decode_bits_aeha_cs data unit_us = decode_bits_aeha_an data unit_us :=
  ⟨decode_cs_eq_simple data unit_us, decode_an_eq_simple data unit_us,
    (decode_cs_eq_simple data unit_us).trans (decode_an_eq_simple data unit_us).symm⟩

theorem classifyBit_nonpos {unit_us : ℚ} (h : unit_us ≤ 0) (space : Nat) :
    classifyBit space unit_us = false := by
  unfold classifyBit
  rw [if_neg (by exact not_lt.mpr h)]
  norm_num

theorem pairBits_nonpos {u : ℚ} (h : u ≤ 0) :
    ∀ l : List Nat, pairBits u l = List.replicate (l.length / 2) false
  | [] => rfl
  | [x] => by
    show ([] : List Bool) = List.replicate ([x].length / 2) false
    simp
  | _ :: space :: rest => by
    show classifyBit space u :: pairBits u rest = _
    rw [classifyBit_nonpos h, pairBits_nonpos h rest]
    have hlen : (rest.length + 1 + 1) / 2 = rest.length / 2 + 1 := by omega
    simp [hlen, List.replicate_succ]

/-- C10: the decoder is total for non-positive units: the guarded
division takes the ratio as 0, every consumed pair classifies as bit 0,
and each copy returns `floor((len(arr) - 2) / 2)` zero bits (zero bits
when `arr` has fewer than 4 entries, which the truncated subtraction
also covers). -/
theorem decoder_total_nonpositive_unit (data : List Int) (unit_us : ℚ)
    (h : unit_us ≤ 0) :
    decode_bits_aeha_cs data unit_us =
      List.replicate (((absNonzero data).length - 2) / 2) false ∧
    decode_bits_aeha_an data unit_us =
      List.replicate (((absNonzero data).length - 2) / 2) false := by
  have hcore : decode_simple data unit_us =
      List.replicate (((absNonzero data).length - 2) / 2) false := by
    by_cases h4 : (absNonzero data).length < 4
    · have h0 : ((absNonzero data).length - 2) / 2 = 0 := by omega
      simp [decode_simple, h4, h0]
    · simp only [decode_simple, if_neg h4]
      rw [pairBits_nonpos h, List.length_drop]
  exact ⟨(decode_cs_eq_simple data unit_us).trans hcore,
    (decode_an_eq_simple data unit_us).trans hcore⟩

theorem decoder_total_nonpositive_unit_witness :
    decode_bits_aeha_cs [3400, 1700, 425, 425, 425, 1275] (0 : ℚ) =
      List.replicate (((absNonzero [3400, 1700, 425, 425, 425, 1275]).length - 2) / 2)
        false :=
  (decoder_total_nonpositive_unit [3400, 1700, 425, 425, 425, 1275] 0 le_rfl).1

/-- Insertion of one element into an ascending list; `sortAsc` models the
sorting performed by Python `statistics.median`. -/
def insertAsc (x : Nat) : List Nat → List Nat
  | [] => [x]
  | y :: ys => if x ≤ y then x :: y :: ys else y :: insertAsc x ys

def sortAsc (l : List Nat) : List Nat := l.foldr insertAsc []

/-- `statistics.median` of the Python standard library, which both call
sites import. Modelled from the spec (the stdlib source is not part of
this repository): sort; odd length takes the middle entry, even length
averages the two middle entries. The call sites never pass an empty list. -/
def median (l : List Nat) : ℚ :=
  let s := sortAsc l
  let n := s.length
  if n % 2 = 1 then (s.getD (n / 2) 0 : ℚ)
  else ((s.getD (n / 2 - 1) 0 : ℚ) + (s.getD (n / 2) 0 : ℚ)) / 2

/-- `estimate_unit_us` of checksum_search.py:
`small = [abs(v) for v in data if 0 < abs(v) < 800]`, falling back to all
nonzero absolute values, then `median(small) if small else 425.0`. -/
def estimate_unit_us_cs (data : List Int) : ℚ :=
  let small :=
    (data.filter fun v => decide (0 < v.natAbs) && decide (v.natAbs < 800)).map
      Int.natAbs
  let small2 :=
    if small.isEmpty then (data.filter fun v => decide (0 < v.natAbs)).map Int.natAbs
    else small
  if small2.isEmpty then 425 else median small2

/-- `estimate_unit_us` of analyze_ir_dump.py: the second, textually
near-identical copy (`abs(v) > 0 and abs(v) < 800`, same 425.0 default). -/
def estimate_unit_us_an (data : List Int) : ℚ :=
  let small :=
    (data.filter fun v => decide (0 < v.natAbs) && decide (v.natAbs < 800)).map
      Int.natAbs
  let small2 :=
    if small.isEmpty then (data.filter fun v => decide (0 < v.natAbs)).map Int.natAbs
    else small
  if small2.isEmpty then 425 else median small2

/-- Claim-side estimator: median of the absolute values strictly between
0 and 800; if that subset is empty, median of all nonzero absolute
values; if that is also empty, the fixed default 425. -/
def specEstimate (data : List Int) : ℚ :=
  let abss := data.map Int.natAbs
  let small := abss.filter fun n => decide (0 < n) && decide (n < 800)
  let nonzero := abss.filter fun n => decide (0 < n)
  if small ≠ [] then median small
  else if nonzero ≠ [] then median nonzero
  else 425

/-- C6: both copies of the unit estimator agree and compute the claim's
description (median of the small-magnitude absolute values, nonzero
fallback, default 425), and the worked example evaluates to 425. -/
theorem estimate_matches_spec (data : List Int) :
    estimate_unit_us_cs data = estimate_unit_us_an data ∧
    estimate_unit_us_cs data = specEstimate data ∧
    estimate_unit_us_cs [3400, 1700, 425, 425, 425, 1275] = 425 := by
  refine ⟨rfl, ?_, ?_⟩
  · have hfm :
        (data.filter fun v => decide (0 < v.natAbs) && decide (v.natAbs < 800)).map
            Int.natAbs =
          (data.map Int.natAbs).filter fun n => decide (0 < n) && decide (n < 800) := by
      rw [List.filter_map]
      rfl
    have hfm2 :
        (data.filter fun v => decide (0 < v.natAbs)).map Int.natAbs =
          (data.map Int.natAbs).filter fun n => decide (0 < n) := by
      rw [List.filter_map]
      rfl
    unfold estimate_unit_us_cs specEstimate
    simp only [hfm, hfm2]
    by_cases hsmall :
        ((data.map Int.natAbs).filter fun n => decide (0 < n) && decide (n < 800)) = []
    · by_cases hnz : ((data.map Int.natAbs).filter fun n => decide (0 < n)) = [] <;>
        simp [hsmall, hnz]
    · simp [hsmall]
  · show ((425 : Nat) : ℚ) = 425
    norm_num

/-- `val |= 1 << b_i` over `enumerate(seg)`: the bit at offset `i` within
the chunk contributes to bit `i` of the byte (first decoded bit = LSB). -/
def byteVal (seg : List Bool) : Nat :=
  seg.enum.foldl (fun val p => if p.2 then val ||| (1 <<< p.1) else val) 0

/-- `bits_to_bytes_lsb_first` of both files: the slice loop `bits[i:i+8]`
with `break` on a short final slice is modelled by matching eight bits at
a time; any final group shorter than 8 bits is discarded, never padded. -/
def bits_to_bytes_lsb_first : List Bool → List Nat
  | b0 :: b1 :: b2 :: b3 :: b4 :: b5 :: b6 :: b7 :: rest =>
      byteVal [b0, b1, b2, b3, b4, b5, b6, b7] :: bits_to_bytes_lsb_first rest
  | _ => []

/-- Claim-side LSB-first 8-bit expansion of a byte value. -/
def bitsOfByte (v : Nat) : List Bool := (List.range 8).map fun i => v.testBit i

set_option maxRecDepth 8000 in
/-- C7: packing the LSB-first 8-bit expansion of any byte value gives the
one-element frame with that byte, and any bit sequence shorter than 8
bits packs to the empty frame. -/
theorem pack_roundtrip :
    (∀ v : Nat, v < 256 → bits_to_bytes_lsb_first (bitsOfByte v) = [v]) ∧
    ∀ bs : List Bool, bs.length < 8 → bits_to_bytes_lsb_first bs = [] := by
  constructor
  · decide
  · intro bs h
    rcases bs with _ | ⟨a1, _ | ⟨a2, _ | ⟨a3, _ | ⟨a4, _ | ⟨a5, _ | ⟨a6, _ |
      ⟨a7, _ | ⟨a8, rest⟩⟩⟩⟩⟩⟩⟩⟩
    · rfl
    · rfl
    · rfl
    · rfl
    · rfl
    · rfl
    · rfl
    · rfl
    · simp only [List.length_cons] at h
      omega

theorem pack_roundtrip_witness :
    bits_to_bytes_lsb_first (bitsOfByte 173) = [173] ∧
    bits_to_bytes_lsb_first [false, true] = [] :=
  ⟨pack_roundtrip.1 173 (by norm_num), pack_roundtrip.2 [false, true] (by norm_num)⟩

/-- `hamming_distance` of analyze_ir_dump.py on bit sequences:
mismatches over `range(min(len(a), len(b)))` plus `abs(len(a) - len(b))`. -/
def hamming_distance (a b : List Bool) : Nat :=
  ((List.range (min a.length b.length)).countP
      fun i => a.getD i false != b.getD i false) +
    ((a.length : Int) - (b.length : Int)).natAbs

/-- Claim-side Hamming distance: mismatch count over the zipped common
prefix plus the length difference. -/
def specHamming (a b : List Bool) : Nat :=
  ((a.zip b).countP fun p => p.1 != p.2) +
    (max a.length b.length - min a.length b.length)

/-- Recursive characterization used to reason about `hamming_distance`. -/
def hammingRec : List Bool → List Bool → Nat
  | [], b => b.length
  | a, [] => a.length
  | x :: xs, y :: ys => (if x == y then 0 else 1) + hammingRec xs ys

theorem if_bne_swap (x y : Bool) :
    (if x != y then 1 else 0 : Nat) = if x == y then 0 else 1 := by
  cases x <;> cases y <;> rfl

theorem hamming_eq_rec : ∀ a b : List Bool, hamming_distance a b = hammingRec a b
  | [], b => by simp [hamming_distance, hammingRec]
  | x :: xs, [] => by
    simp [hamming_distance, hammingRec]
    omega
  | x :: xs, y :: ys => by
    have ih := hamming_eq_rec xs ys
    unfold hamming_distance at ih ⊢
    have hmin : min (x :: xs).length (y :: ys).length = min xs.length ys.length + 1 := by
      simp [Nat.succ_min_succ]
    have hpt : ((fun i => (x :: xs).getD i false != (y :: ys).getD i false) ∘ Nat.succ) =
        fun i => xs.getD i false != ys.getD i false := by
      funext i
      simp [Function.comp, List.getD]
    have habs : (((x :: xs).length : Int) - ((y :: ys).length : Int)).natAbs =
        ((xs.length : Int) - (ys.length : Int)).natAbs := by
      simp only [List.length_cons]
      omega
    rw [hmin, List.range_succ_eq_map, List.countP_cons, List.countP_map, hpt, habs]
    have hzero : ((x :: xs).getD 0 false != (y :: ys).getD 0 false) = (x != y) := rfl
    rw [hzero, if_bne_swap]
    simp only [hammingRec]
    generalize (if x == y then 0 else 1 : Nat) = w
    omega

theorem spec_eq_rec : ∀ a b : List Bool, specHamming a b = hammingRec a b
  | [], b => by simp [specHamming, hammingRec]
  | x :: xs, [] => by simp [specHamming, hammingRec]
  | x :: xs, y :: ys => by
    have ih := spec_eq_rec xs ys
    unfold specHamming at ih ⊢
    have hhead : ((x, y).1 != (x, y).2) = (x != y) := rfl
    rw [List.zip_cons_cons, List.countP_cons, hhead, if_bne_swap]
    simp only [List.length_cons, Nat.succ_max_succ, Nat.succ_min_succ, hammingRec]
    generalize (if x == y then 0 else 1 : Nat) = w
    omega

theorem hamming_rec_symm : ∀ a b : List Bool, hammingRec a b = hammingRec b a
  | [], [] => rfl
  | [], _ :: _ => by simp [hammingRec]
  | _ :: _, [] => by simp [hammingRec]
  | x :: xs, y :: ys => by
    have ih := hamming_rec_symm xs ys
    simp only [hammingRec, ih]
    cases x <;> cases y <;> rfl

theorem hamming_rec_eq_zero : ∀ a b : List Bool, hammingRec a b = 0 ↔ a = b
  | [], b => by
    simp [hammingRec, List.length_eq_zero, eq_comm]
  | x :: xs, [] => by simp [hammingRec]
  | x :: xs, y :: ys => by
    have ih := hamming_rec_eq_zero xs ys
    cases hxy : (x == y) with
    | false =>
      have hne : x ≠ y := by simpa using hxy
      simp [hammingRec, hxy, hne]
    | true =>
      have heq : x = y := by simpa using hxy
      simp [hammingRec, hxy, heq, ih]

/-- C8: the Hamming distance equals the mismatch count over the common
prefix plus the length difference, is symmetric, and is zero exactly on
equal bit sequences. -/
theorem hamming_properties :
    (∀ a b : List Bool, hamming_distance a b = specHamming a b) ∧
    (∀ a b : List Bool, hamming_distance a b = hamming_distance b a) ∧
    ∀ a b : List Bool, hamming_distance a b = 0 ↔ a = b := by
  refine ⟨fun a b => (hamming_eq_rec a b).trans (spec_eq_rec a b).symm,
    fun a b => (hamming_eq_rec a b).trans
      ((hamming_rec_symm a b).trans (hamming_eq_rec b a).symm), ?_⟩
  intro a b
  rw [hamming_eq_rec]
  exact hamming_rec_eq_zero a b

end RemoFan
